import Mathlib

/-!
Verification development for the DragonTermuxtoPDF repository
(src/TermuxtoPDF.py and src/termux_pdf.py).

Text is modelled as `List Char`.  Python regular expressions are embedded
as executable recursive functions with `re.sub`'s left-to-right,
non-overlapping scan semantics.  The character classes `[A-Z]` and `\s`
are modelled on the ASCII fragment (Python's `\s` on ASCII text is
exactly space, tab, newline, carriage return, vertical tab and form feed);
all concrete inputs appearing below are ASCII.
-/

namespace TermuxPDF

/-- ASCII `[A-Z]`, as matched by the section-header regex in
`improved_format_man_page` (src/TermuxtoPDF.py line 88). -/
def isUpperChar (c : Char) : Bool := 'A' ≤ c && c ≤ 'Z'

/-- Python `\s` restricted to ASCII: space, tab, newline, carriage return,
vertical tab, form feed. -/
def isPySpaceChar (c : Char) : Bool :=
  c = ' ' || c = '\t' || c = '\n' || c = '\r' || c = '\x0b' || c = '\x0c'

/-- The character class `[ \t]` of the whitespace-normalisation regex
(src/TermuxtoPDF.py line 75). -/
def isSpaceTab (c : Char) : Bool := c = ' ' || c = '\t'

/-- `[0-9;]`, the inner class of the ANSI-escape regex
(src/TermuxtoPDF.py line 69). -/
def isDigitSemi (c : Char) : Bool := ('0' ≤ c && c ≤ '9') || c = ';'

/-- One-pass scan for `re.sub(r'\x1b\[[0-9;]*m', '', text)`
(src/TermuxtoPDF.py line 69).  `pending` holds the characters of a
partially matched escape sequence: either `['\x1b']`, or `'\x1b' :: '['`
followed by digits and semicolons.  On a completed match (`m`) the
pending characters are dropped; on a failed match they are flushed to the
output.  No character of a flushed partial match other than a fresh ESC
can begin a new match, so the flush is faithful to the regex's
position-by-position scan. -/
def removeAnsiAux (pending : List Char) : List Char → List Char
  | [] => pending
  | c :: rest =>
    if pending = [] then
      if c = '\x1b' then removeAnsiAux ['\x1b'] rest
      else c :: removeAnsiAux [] rest
    else if pending = ['\x1b'] then
      if c = '[' then removeAnsiAux ['\x1b', '['] rest
      else if c = '\x1b' then '\x1b' :: removeAnsiAux ['\x1b'] rest
      else '\x1b' :: c :: removeAnsiAux [] rest
    else
      if c = 'm' then removeAnsiAux [] rest
      else if isDigitSemi c then removeAnsiAux (pending ++ [c]) rest
      else if c = '\x1b' then pending ++ removeAnsiAux ['\x1b'] rest
      else pending ++ c :: removeAnsiAux [] rest

/-- `re.sub(r'\x1b\[[0-9;]*m', '', text)` (src/TermuxtoPDF.py line 69):
remove ANSI colour/style escape sequences, scanning left to right. -/
def removeAnsi (s : List Char) : List Char := removeAnsiAux [] s

/-- `re.sub(r'(.)\1', r'\1', text)` (src/TermuxtoPDF.py line 72): collapse
a character immediately followed by an identical character to one
occurrence; `.` does not match a newline, and the scan is left-to-right
and non-overlapping. -/
def removeDoubled : List Char → List Char
  | a :: b :: rest =>
    if a = b ∧ a ≠ '\n' then a :: removeDoubled rest
    else a :: removeDoubled (b :: rest)
  | [a] => [a]
  | [] => []

/-- One-pass scan for `re.sub(r'[ \t]+', ' ', text)` (src/TermuxtoPDF.py
line 75): a maximal run of spaces and tabs becomes one space.  `inRun`
records whether the previous character belonged to a run (for which the
single space has already been emitted). -/
def collapseSpacesAux (inRun : Bool) : List Char → List Char
  | [] => []
  | c :: rest =>
    if isSpaceTab c then
      if inRun then collapseSpacesAux true rest
      else ' ' :: collapseSpacesAux true rest
    else c :: collapseSpacesAux false rest

/-- `re.sub(r'[ \t]+', ' ', text)` (src/TermuxtoPDF.py line 75). -/
def collapseSpaces (s : List Char) : List Char := collapseSpacesAux false s

/-- `text.replace('\r\n', '\n')` (src/TermuxtoPDF.py line 76), as the
usual left-to-right non-overlapping replacement. -/
def removeCR : List Char → List Char
  | a :: b :: rest =>
    if a = '\r' ∧ b = '\n' then '\n' :: removeCR rest
    else a :: removeCR (b :: rest)
  | [a] => [a]
  | [] => []

/-- `text.split('\n')` (src/TermuxtoPDF.py line 79); Python's `str.split`
on `''` yields `['']`. -/
def splitNL : List Char → List (List Char)
  | [] => [[]]
  | c :: rest =>
    if c = '\n' then [] :: splitNL rest
    else (c :: (splitNL rest).headI) :: (splitNL rest).tail

/-- `line.rstrip()` (src/TermuxtoPDF.py line 85): drop trailing
whitespace. -/
def rstrip : List Char → List Char
  | [] => []
  | c :: rest =>
    match rstrip rest with
    | [] => if isPySpaceChar c then [] else [c]
    | r => c :: r

/-- `re.match(r'^[A-Z][A-Z\s]+$', line)` (src/TermuxtoPDF.py lines 51 and
88): an uppercase letter followed by one or more uppercase letters or
whitespace characters, spanning the whole line. -/
def isHeaderLine : List Char → Bool
  | [] => false
  | c :: rest => isUpperChar c && !rest.isEmpty && rest.all (fun d => isUpperChar d || isPySpaceChar d)

/-- `'-' * 40`, the rule inserted under a recognised section header
(src/TermuxtoPDF.py line 90). -/
def dashLine : List Char := List.replicate 40 '-'

/-- One iteration of the section-processing loop (src/TermuxtoPDF.py
lines 83-93): rstrip the line; a header line is surrounded by blank lines
and underlined with dashes; a non-empty body line is kept; an empty line
is dropped. -/
def processLine (l : List Char) : List (List Char) :=
  let l' := rstrip l
  if isHeaderLine l' then [[], l', dashLine, []]
  else if l' = [] then [] else [l']

/-- The whole loop: concatenation of the per-line outputs, building
`processed_lines`. -/
def processLines : List (List Char) → List (List Char)
  | [] => []
  | l :: ls => processLine l ++ processLines ls

/-- `'\n'.join(processed_lines)` (src/TermuxtoPDF.py line 95). -/
def joinLines : List (List Char) → List Char
  | [] => []
  | [l] => l
  | l :: l2 :: ls => l ++ '\n' :: joinLines (l2 :: ls)

/-- One-pass scan for `re.sub(r'\n{3,}', '\n\n', text)`
(src/TermuxtoPDF.py line 98): `pending` counts the newlines of the
current run; when the run ends, a run of `k` newlines contributes
`min k 2` newlines — runs of one or two newlines are kept, runs of three
or more become exactly two, as the greedy regex replacement does. -/
def collapseNLAux (pending : Nat) : List Char → List Char
  | [] => List.replicate (min pending 2) '\n'
  | c :: rest =>
    if c = '\n' then collapseNLAux (pending + 1) rest
    else List.replicate (min pending 2) '\n' ++ c :: collapseNLAux 0 rest

/-- `re.sub(r'\n{3,}', '\n\n', text)` (src/TermuxtoPDF.py line 98). -/
def collapseNL (s : List Char) : List Char := collapseNLAux 0 s

/-- The character-level cleanup stage of `improved_format_man_page`
(src/TermuxtoPDF.py lines 69-76), in source order: strip ANSI escapes,
remove form feeds, remove underscores, collapse doubled characters,
collapse horizontal whitespace, normalise CRLF line endings. -/
def cleanupText (t : List Char) : List Char :=
  removeCR (collapseSpaces (removeDoubled
    (((removeAnsi t).filter (fun c => c ≠ '\x0c')).filter (fun c => c ≠ '_'))))

/-- `PDF.improved_format_man_page` (src/TermuxtoPDF.py lines 64-99):
empty input short-circuits to the empty string; otherwise cleanup, split
into lines, run the section-processing loop, re-join, and collapse runs
of three or more newlines. -/
def improved_format_man_page (t : List Char) : List Char :=
  if t = [] then []
  else collapseNL (joinLines (processLines (splitNL (cleanupText t))))

/-- The lines the section-processing loop classifies on an input `t`:
the rstripped lines of the cleaned-up text.  A line is classified as a
section header exactly when `isHeaderLine` holds of it. -/
def classifiedLines (t : List Char) : List (List Char) :=
  (splitNL (cleanupText t)).map rstrip

/-- The lines classified as section headers by the formatter pass on
input `t`. -/
def headerLines (t : List Char) : List (List Char) :=
  (classifiedLines t).filter isHeaderLine

/-- Modelled from the spec's words (section 4.4, step 4): a line that
"starts with an uppercase letter, and consists only of uppercase letters
and spaces".  Used to compare the spec's classification shape with the
code's regex. -/
def specHeaderShape : List Char → Bool
  | [] => false
  | c :: rest => isUpperChar c && (c :: rest).all (fun d => isUpperChar d || d = ' ')

/-- Substring matching at the head of a list. -/
def leadsWith : List Char → List Char → Bool
  | [], _ => true
  | _ :: _, [] => false
  | a :: ps, b :: ss => a = b && leadsWith ps ss

/-- `pat in s` for lists of characters (naive substring search). -/
def containsSub (pat : List Char) : List Char → Bool
  | [] => pat.isEmpty
  | s@(_ :: rest) => leadsWith pat s || containsSub pat rest

/-- No window of three consecutive characters consists of three
newlines, i.e. the text never contains two consecutive blank lines. -/
def noTripleNL : List Char → Bool
  | a :: b :: c :: rest => !(a = '\n' && b = '\n' && c = '\n') && noTripleNL (b :: c :: rest)
  | [_, _] => true
  | [_] => true
  | [] => true

/-- No character is immediately followed by an identical non-newline
character: the inputs on which the doubled-character collapse
(src/TermuxtoPDF.py line 72) is the identity. -/
def noDouble : List Char → Bool
  | a :: b :: rest => (a ≠ b || a = '\n') && noDouble (b :: rest)
  | _ => true

/-- Raw text that the cleanup stage (src/TermuxtoPDF.py lines 69-76)
leaves unchanged: no escape character, form feed, underscore, tab or
carriage return, and no doubled characters. -/
def normalizedText (t : List Char) : Bool :=
  t.all (fun c => c ≠ '\x1b' && c ≠ '\x0c' && c ≠ '_' && c ≠ '\t' && c ≠ '\r') && noDouble t

/-! ## The pipeline (src/TermuxtoPDF.py lines 101-294)

External subprocess calls are modelled by oracles: a call either returns
`(returncode, stdout)` or raises, which `Except.error` represents.  The
oracle answers depend only on the queried argument, matching one run of
the external tools. -/

/-- Outcome of one `subprocess.run` call: a (returncode, stdout) pair, or
a raised exception carrying a message. -/
abbrev ProcResult := Except String (Int × String)

/-- The external collaborators of one run: the per-package manifest query
(`dpkg -L`, line 115) and the documentation renderer
(`man ... | col -b`, line 128). -/
structure Env where
  manifest : String → ProcResult
  render : String → ProcResult

/-- `fetch_man_page` (src/TermuxtoPDF.py lines 124-138, and the identical
logic of src/termux_pdf.py lines 35-45): return stdout when the renderer
exits 0; fold a non-zero exit or a raised process error into `none`. -/
def fetch_man_page (render : String → ProcResult) (man_path : String) : Option String :=
  match render man_path with
  | Except.error _ => none
  | Except.ok (rc, out) => if rc = 0 then some out else none

/-- `'/man/' in line`. -/
def hasManDir (line : String) : Bool := containsSub ("/man/".data) line.data

/-- `line.endswith('.gz')`. -/
def endsGz (line : String) : Bool := leadsWith (".gz".data.reverse) line.data.reverse

/-- `result.stdout.splitlines()`, modelled on newline-separated output
(trailing empty lines are irrelevant to every use below). -/
def pySplitlines (s : String) : List String := (splitNL s.data).map String.mk

/-- `get_package_man_pages` (src/TermuxtoPDF.py lines 111-122): the
manifest lines under a `/man/` directory not ending in `.gz`; a non-zero
exit or a raised error yields `[]`. -/
def get_package_man_pages (env : Env) (package : String) : List String :=
  match env.manifest package with
  | Except.error _ => []
  | Except.ok (rc, out) =>
    if rc = 0 then (pySplitlines out).filter (fun l => hasManDir l && !endsGz l)
    else []

/-- `os.path.basename` (src/TermuxtoPDF.py line 167). -/
def basename (s : String) : String :=
  String.mk ((s.data.reverse.takeWhile (fun c => c ≠ '/')).reverse)

/-- Insertion into a Python dict rendered as an association list:
overwrite in place on an existing key, append otherwise. -/
def dictInsert (k v : String) (d : List (String × String)) : List (String × String) :=
  if d.any (fun kv => kv.1 = k) then d.map (fun kv => if kv.1 = k then (k, v) else kv)
  else d ++ [(k, v)]

/-- What one worker hands to the aggregator: at most one queue item, plus
whether any content was found. -/
structure WorkerOut where
  queueItem : Option (String × List (String × String))
  hasContent : Bool
deriving DecidableEq

/-- The fetch part of `PDFGenerator.process_package` (src/TermuxtoPDF.py
lines 152-172): locate man pages; with none located, fall back to a
direct fetch by package name; otherwise fetch every located page into
`package_pages`, keyed by basename; enqueue at most one item. -/
def process_package (env : Env) (package : String) : WorkerOut :=
  let man_pages := get_package_man_pages env package
  if man_pages = [] then
    match fetch_man_page env.render package with
    | some content => ⟨some (package, [(package, content)]), true⟩
    | none => ⟨none, false⟩
  else
    let package_pages := man_pages.foldl (fun d mp =>
      match fetch_man_page env.render mp with
      | some content => dictInsert (basename mp) content d
      | none => d) []
    ⟨if package_pages = [] then none else some (package, package_pages), !package_pages.isEmpty⟩

/-- The run statistics of `PDFGenerator` (src/TermuxtoPDF.py lines
146-150). -/
structure RunStats where
  processed : Nat
  packages_with_man : List String
  failed_packages : List (String × String)
  total_man_pages : Nat
deriving DecidableEq

def initStats : RunStats := ⟨0, [], [], 0⟩

/-- The statistics update performed by one worker thread
(src/TermuxtoPDF.py lines 152-184).  `crash package = some msg` models an
unexpected exception raised inside the worker body, caught at lines
180-184: the package is recorded as failed and still counted as
processed.  Without a crash, the package is counted and recorded as
having documentation when content was found (lines 174-177). -/
def workerUpdate (env : Env) (crash : String → Option String) (package : String)
    (s : RunStats) : RunStats :=
  match crash package with
  | some msg =>
    { s with processed := s.processed + 1,
             failed_packages := s.failed_packages ++ [(package, msg)] }
  | none =>
    { s with processed := s.processed + 1,
             packages_with_man :=
               if (process_package env package).hasContent
               then s.packages_with_man ++ [package] else s.packages_with_man }

/-- The queue items a batch's workers produce (crashed workers enqueue
nothing). -/
def queueItems (env : Env) (crash : String → Option String) (batch : List String) :
    List (String × List (String × String)) :=
  batch.filterMap (fun p => if (crash p).isSome then none else (process_package env p).queueItem)

/-- The aggregator's statistics update while draining one batch
(src/TermuxtoPDF.py lines 243-246): one `total_man_pages` increment per
page written to the document. -/
def aggUpdate (items : List (String × List (String × String))) (s : RunStats) : RunStats :=
  items.foldl (fun s it => { s with total_man_pages := s.total_man_pages + it.2.length }) s

/-- `packages[i:i + batch_size]` slicing with `batch_size = 50`
(src/TermuxtoPDF.py lines 214-218). -/
def batches50 : List String → List (List String)
  | [] => []
  | p :: rest => (p :: rest).take 50 :: batches50 ((p :: rest).drop 50)
termination_by l => l.length
decreasing_by simp [List.length_drop]; omega

/-- One batch of `PDFGenerator.generate_pdf` (src/TermuxtoPDF.py lines
217-264): the batch's workers all run, then the aggregator drains the
queue. -/
def batchRun (env : Env) (crash : String → Option String) (batch : List String)
    (s : RunStats) : RunStats :=
  aggUpdate (queueItems env crash batch) (batch.foldl (fun s p => workerUpdate env crash p s) s)

/-- The run statistics at Finalizing, after every batch has been
dispatched and drained (src/TermuxtoPDF.py lines 186-264). -/
def generate_pdf_stats (env : Env) (crash : String → Option String)
    (packages : List String) : RunStats :=
  (batches50 packages).foldl (fun s b => batchRun env crash b s) initStats

/-- `get_all_packages` (src/TermuxtoPDF.py lines 101-109, identical in
src/termux_pdf.py lines 25-33): on a zero exit, the part of each
non-empty output line before the first `/`, deduplicated and sorted
(`sorted(set(packages))`); on a non-zero exit, the empty list. -/
def get_all_packages (returncode : Int) (stdout : List Char) : List String :=
  if returncode ≠ 0 then []
  else
    let packages := ((splitNL stdout).filter (fun l => l ≠ [])).map
      (fun l => String.mk (l.takeWhile (fun c => c ≠ '/')))
    packages.dedup.mergeSort (fun a b => a ≤ b)

/-- `main` (src/TermuxtoPDF.py lines 284-291): an empty package listing
(which is also what a failed listing produces) ends the run before any
work starts and before any document output exists; otherwise the full
pipeline runs.  `none` is the aborted, document-free outcome. -/
def mainRun (returncode : Int) (stdout : List Char) (env : Env)
    (crash : String → Option String) : Option RunStats :=
  let packages := get_all_packages returncode stdout
  if packages = [] then none
  else some (generate_pdf_stats env crash packages)

/-! ## Mutation-site model for the concurrency discipline (claim C2)

Each mutation of shared state in src/TermuxtoPDF.py is recorded as an
event: which thread performs it (worker threads run `process_package`;
the aggregator is the thread running the drain loop of `generate_pdf`),
which piece of shared state it touches, and whether it occurs inside a
`with self.lock` block. -/

inductive Actor | worker | aggregator
deriving DecidableEq

inductive MutTarget
  | processedCount   -- RunStats: self.processed_count
  | withManList      -- RunStats: self.packages_with_man
  | failedList       -- RunStats: self.failed_packages
  | manPagesCount    -- RunStats: self.total_man_pages
  | sink             -- DocumentSink: self.pdf
deriving DecidableEq

structure MutEvent where
  actor : Actor
  target : MutTarget
  locked : Bool
deriving DecidableEq

/-- Is the target part of RunStats (as opposed to the DocumentSink)? -/
def isRunStatsTarget : MutTarget → Bool
  | MutTarget.sink => false
  | _ => true

/-- The shared-state mutations of one worker running `process_package`
(src/TermuxtoPDF.py lines 174-184), in program order.  On the success
path (lines 174-177) `processed_count` and, when content was found,
`packages_with_man` are mutated inside `with self.lock`.  On the
exception path (lines 180-184) `failed_packages` is appended OUTSIDE the
lock (line 181), then `processed_count` inside it (lines 182-183). -/
def processPackageEvents (hasContent raised : Bool) : List MutEvent :=
  if raised then
    [⟨Actor.worker, MutTarget.failedList, false⟩,
     ⟨Actor.worker, MutTarget.processedCount, true⟩]
  else
    ⟨Actor.worker, MutTarget.processedCount, true⟩ ::
      (if hasContent then [⟨Actor.worker, MutTarget.withManList, true⟩] else [])

/-- The shared-state mutations of the aggregator (the drain loop of
`generate_pdf`, src/TermuxtoPDF.py lines 236-252, and the final
`self.pdf.output` at line 267): document writes and the
`total_man_pages` increment inside `with self.lock`, and the final
document write outside it. -/
def aggregatorEvents : List MutEvent :=
  [⟨Actor.aggregator, MutTarget.sink, true⟩,
   ⟨Actor.aggregator, MutTarget.manPagesCount, true⟩,
   ⟨Actor.aggregator, MutTarget.sink, false⟩]

/-- Every mutation event of one worker-plus-aggregator interaction. -/
def allEvents (hasContent raised : Bool) : List MutEvent :=
  processPackageEvents hasContent raised ++ aggregatorEvents

/-! ## Concrete oracles used to instantiate the theorems -/

/-- An environment in which every manifest query raises and the renderer
always exits 1. -/
def envA : Env := ⟨fun _ => Except.error ("dpkg failed"), fun _ => Except.ok (1, "ignored")⟩

/-- Like `envA`, except the renderer raises on the single page
`"other"`. -/
def envB : Env :=
  ⟨fun _ => Except.error ("dpkg failed"),
   fun m => if m = "other" then Except.error ("boom") else Except.ok (1, "ignored")⟩

/-- The no-crash oracle: no worker raises unexpectedly. -/
def crash0 : String → Option String := fun _ => none

/-! ## Theorems -/

/-- C1: for every page reference, `fetch_man_page` yields either rendered
text or `none`: a non-zero renderer exit and a raised process error are
both folded into `none` (never propagated), and one package's worker
outcome depends only on that package's own manifest and renderer answers,
so a single fetch failure cannot prevent the other packages of a batch
from being processed and written. -/
theorem C1_fetch_failure_isolated :
    (∀ (render : String → ProcResult) (p : String) (rc : Int) (out : String),
        render p = Except.ok (rc, out) → rc ≠ 0 → fetch_man_page render p = none)
    ∧ (∀ (render : String → ProcResult) (p msg : String),
        render p = Except.error msg → fetch_man_page render p = none)
    ∧ (∀ (env₁ env₂ : Env) (q : String),
        env₁.manifest q = env₂.manifest q →
        (∀ m, m ∈ get_package_man_pages env₁ q → env₁.render m = env₂.render m) →
        env₁.render q = env₂.render q →
        process_package env₁ q = process_package env₂ q) := by
  refine ⟨?_, ?_, ?_⟩
  · intro render p rc out h hrc
    simp [fetch_man_page, h, hrc]
  · intro render p msg h
    simp [fetch_man_page, h]
  · intro env₁ env₂ q hman hrenders hrenderq
    have hpages : get_package_man_pages env₂ q = get_package_man_pages env₁ q := by
      simp [get_package_man_pages, hman]
    have hfq : fetch_man_page env₁.render q = fetch_man_page env₂.render q := by
      simp [fetch_man_page, hrenderq]
    have hfold : List.foldl (fun d mp =>
          match fetch_man_page env₁.render mp with
          | some content => dictInsert (basename mp) content d
          | none => d) ([] : List (String × String)) (get_package_man_pages env₁ q)
        = List.foldl (fun d mp =>
          match fetch_man_page env₂.render mp with
          | some content => dictInsert (basename mp) content d
          | none => d) [] (get_package_man_pages env₁ q) := by
      apply List.foldl_ext
      intro d mp hmp
      rw [show fetch_man_page env₁.render mp = fetch_man_page env₂.render mp from by
        simp [fetch_man_page, hrenders mp hmp]]
    simp only [process_package, hpages, hfq, hfold]

/-- C1 witness: a renderer exit of 1 is folded into `none`, and two
environments differing only on an unrelated page give the same worker
outcome for package "pkg". -/
theorem C1_witness :
    fetch_man_page envA.render ("pkg") = none
    ∧ process_package envA ("pkg") = process_package envB ("pkg") :=
  ⟨C1_fetch_failure_isolated.1 envA.render ("pkg") 1 ("ignored") rfl (by decide),
   C1_fetch_failure_isolated.2.2 envA envB ("pkg") rfl
     (by intro m hm; simp [get_package_man_pages, envA] at hm) (by simp [envA, envB])⟩

/-- C2 counterexample: the claim "only the aggregator thread mutates
RunStats, and every RunStats mutation is inside the lock" is false of the
code: the worker's own events (src/TermuxtoPDF.py lines 174-184) already
violate it — workers mutate `processed_count`, and the exception path
appends to `failed_packages` outside the lock. -/
theorem C2_counterexample :
    ¬ (∀ e ∈ allEvents true true,
        isRunStatsTarget e.target = true → e.actor = Actor.aggregator ∧ e.locked = true) := by
  decide

/-- C2 amended: worker threads themselves mutate RunStats (the processed
count, the with-docs list and the failures list), and every RunStats
mutation happens inside the lock except the failures-list append, which
happens outside it; the DocumentSink is mutated only by the aggregator
thread. -/
theorem C2_amended : ∀ hasContent raised : Bool,
    ((allEvents hasContent raised).all (fun e =>
        if e.target = MutTarget.sink then decide (e.actor = Actor.aggregator) else true) = true)
    ∧ ((processPackageEvents hasContent raised).all (fun e =>
        decide (e.actor = Actor.worker)) = true)
    ∧ ((allEvents hasContent raised).all (fun e =>
        if isRunStatsTarget e.target && !(e.target = MutTarget.failedList : Bool)
        then e.locked else true) = true)
    ∧ ((allEvents hasContent raised).all (fun e =>
        if e.target = MutTarget.failedList
        then decide (e.actor = Actor.worker) && !e.locked else true) = true) := by
  decide

/-- Each worker's statistics update counts its package exactly once,
whether the worker crashed or not. -/
theorem workerUpdate_processed (env : Env) (crash : String → Option String)
    (package : String) (s : RunStats) :
    (workerUpdate env crash package s).processed = s.processed + 1 := by
  unfold workerUpdate
  cases crash package <;> simp

/-- Folding the worker updates over a batch adds the batch length to the
processed count. -/
theorem foldl_workerUpdate_processed (env : Env) (crash : String → Option String) :
    ∀ (batch : List String) (s : RunStats),
    (batch.foldl (fun s p => workerUpdate env crash p s) s).processed
      = s.processed + batch.length := by
  intro batch
  induction batch with
  | nil => intro s; simp
  | cons p rest ih =>
    intro s
    simp only [List.foldl_cons, ih, workerUpdate_processed, List.length_cons]
    omega

/-- The aggregator never touches the processed count. -/
theorem aggUpdate_processed :
    ∀ (items : List (String × List (String × String))) (s : RunStats),
    (aggUpdate items s).processed = s.processed := by
  intro items
  induction items with
  | nil => intro s; simp [aggUpdate]
  | cons it rest ih =>
    intro s
    simp only [aggUpdate, List.foldl_cons] at ih ⊢
    exact ih _

/-- One dispatched-and-drained batch adds exactly its size to the
processed count. -/
theorem batchRun_processed (env : Env) (crash : String → Option String)
    (batch : List String) (s : RunStats) :
    (batchRun env crash batch s).processed = s.processed + batch.length := by
  unfold batchRun
  rw [aggUpdate_processed, foldl_workerUpdate_processed]

/-- C3: at Finalizing, after all batches have been dispatched and
drained, the processed count equals the number of input packages, no
matter which fetches failed or which workers raised. -/
theorem C3_processed_equals_input :
    ∀ (env : Env) (crash : String → Option String) (packages : List String),
    (generate_pdf_stats env crash packages).processed = packages.length := by
  intro env crash packages
  suffices h : ∀ (l : List String) (s : RunStats),
      ((batches50 l).foldl (fun s b => batchRun env crash b s) s).processed
        = s.processed + l.length by
    have := h packages initStats
    simpa [generate_pdf_stats, initStats] using this
  intro l
  induction l using batches50.induct with
  | case1 => intro s; simp [batches50]
  | case2 p rest ih =>
    intro s
    rw [show batches50 (p :: rest)
        = (p :: rest).take 50 :: batches50 ((p :: rest).drop 50) from by
      rw [batches50]]
    simp only [List.foldl_cons, ih, batchRun_processed]
    simp only [List.length_take, List.length_drop, List.length_cons]
    omega

/-- C4 counterexample: for the raw input `"a\n\n\n\nb"`, which contains
three consecutive blank lines between two body lines, the formatted
output is `"a\nb"`: the blank lines are dropped entirely, and the output
contains no blank separator at all rather than exactly one. -/
theorem C4_counterexample :
    improved_format_man_page ("a\n\n\n\nb".data) = ("a\nb".data)
    ∧ containsSub ("\n\n".data) (improved_format_man_page ("a\n\n\n\nb".data)) = false := by
  decide

theorem noTriple_cons_of_ne {c : Char} (hc : c ≠ '\n') :
    ∀ {Y : List Char}, noTripleNL Y = true → noTripleNL (c :: Y) = true := by
  intro Y hY
  match Y with
  | [] => rfl
  | [y] => rfl
  | y1 :: y2 :: rest =>
    rw [noTripleNL]
    simp only [Bool.and_eq_true, Bool.not_eq_true']
    exact ⟨by simp [hc], hY⟩

theorem noTriple_cons_cons {c x : Char} (hc : c ≠ '\n') :
    ∀ {Y : List Char}, noTripleNL (c :: Y) = true → noTripleNL (x :: c :: Y) = true := by
  intro Y hY
  match Y with
  | [] => rfl
  | y :: rest =>
    rw [noTripleNL]
    simp only [Bool.and_eq_true, Bool.not_eq_true']
    exact ⟨by simp [hc], hY⟩

theorem noTriple_replicate {k : Nat} (hk : k ≤ 2) :
    noTripleNL (List.replicate k '\n') = true := by
  interval_cases k <;> rfl

theorem noTriple_glue {c : Char} {k : Nat} {Y : List Char} (hc : c ≠ '\n') (hk : k ≤ 2)
    (hY : noTripleNL Y = true) :
    noTripleNL (List.replicate k '\n' ++ c :: Y) = true := by
  interval_cases k
  · simpa using noTriple_cons_of_ne hc hY
  · simpa using noTriple_cons_cons hc (noTriple_cons_of_ne hc hY)
  · show noTripleNL ('\n' :: '\n' :: c :: Y) = true
    rw [noTripleNL]
    simp only [Bool.and_eq_true, Bool.not_eq_true']
    exact ⟨by simp [hc], noTriple_cons_cons hc (noTriple_cons_of_ne hc hY)⟩

theorem noTriple_collapseNLAux :
    ∀ (s : List Char) (p : Nat), noTripleNL (collapseNLAux p s) = true := by
  intro s
  induction s with
  | nil =>
    intro p
    rw [collapseNLAux]
    exact noTriple_replicate (Nat.min_le_right _ _)
  | cons a rest ih =>
    intro p
    rw [collapseNLAux]
    by_cases ha : a = '\n'
    · rw [if_pos ha]; exact ih _
    · rw [if_neg ha]
      exact noTriple_glue ha (Nat.min_le_right _ _) (ih 0)

/-- C4 amended: blank lines between body lines are removed entirely by
the line loop, and the final newline collapse guarantees that the output
never contains two consecutive blank lines; around section headers the
inserted blank padding is collapsed to exactly one blank separator, as
the concrete two-header scenario shows. -/
theorem C4_amended :
    (∀ t : List Char, noTripleNL (improved_format_man_page t) = true)
    ∧ improved_format_man_page ("NAME\n\n\n\nSYNOPSIS".data)
        = ("\nNAME\n".data ++ dashLine ++ ("\n\nSYNOPSIS\n".data ++ dashLine ++ ("\n".data))) := by
  constructor
  · intro t
    unfold improved_format_man_page
    by_cases ht : t = []
    · rw [if_pos ht]; rfl
    · rw [if_neg ht]
      exact noTriple_collapseNLAux _ 0
  · decide

/-- C5 counterexample: on input `"aaaa"` the formatter's output is
`"aa"`, which still contains a character immediately followed by an
identical character — the doubled-character collapse is a single
non-overlapping left-to-right pass, not a fixpoint. -/
theorem C5_counterexample :
    improved_format_man_page ("aaaa".data) = ("aa".data)
    ∧ noDouble ("aa".data) = false := by
  decide

/-- C5 amended: the doubled-character collapse is a single left-to-right
non-overlapping pass: each time a non-newline character is immediately
followed by an identical character, that pair collapses to one occurrence
and the scan resumes after the pair (so runs of four or more identical
characters retain doubled characters in the output). -/
theorem C5_amended : ∀ (a : Char) (s : List Char), a ≠ '\n' →
    removeDoubled (a :: a :: s) = a :: removeDoubled s := by
  intro a s h
  simp [removeDoubled, h]

/-- C5 amended, witness at a concrete pair. -/
theorem C5_amended_witness :
    ('b' ≠ '\n') ∧ removeDoubled ['b', 'b', 'x'] = 'b' :: removeDoubled ['x'] :=
  ⟨by decide, C5_amended 'b' ['x'] (by decide)⟩

/-- C6 counterexample: the single-character line `"A"` starts with an
uppercase letter and consists only of uppercase letters, yet the code's
regex `^[A-Z][A-Z\s]+$` (which requires at least two characters) does not
classify it as a section header. -/
theorem C6_counterexample :
    specHeaderShape ['A'] = true ∧ isHeaderLine ['A'] = false := by
  decide

/-- C6 amended: a line is classified as a section header exactly when it
has at least two characters, starts with an uppercase letter, and its
remaining characters are all uppercase letters or whitespace; in the
scenario, `NAME` is classified as a section header (and is rendered with
its dash underline) while the following line is kept as a body line (note
the doubled-character collapse turns `SHell` into `SHel` first). -/
theorem C6_amended :
    (∀ (c : Char) (rest : List Char),
        isHeaderLine (c :: rest)
          = (isUpperChar c && !rest.isEmpty
              && rest.all (fun d => isUpperChar d || isPySpaceChar d)))
    ∧ isHeaderLine [] = false
    ∧ headerLines ("NAME\n\nbash - GNU Bourne-Again SHell".data) = [("NAME".data)]
    ∧ isHeaderLine ("bash - GNU Bourne-Again SHel".data) = false
    ∧ improved_format_man_page ("NAME\n\nbash - GNU Bourne-Again SHell".data)
        = ("\nNAME\n".data ++ dashLine ++ ("\n\nbash - GNU Bourne-Again SHel".data)) := by
  refine ⟨fun c rest => rfl, rfl, ?_, by decide, ?_⟩
  · decide
  · decide

/-- C8: a non-zero exit of the OS package query yields the empty listing,
and the run ends before any work starts with no document produced (the
`none` outcome); an empty listing likewise ends the run with no document,
as a normal (non-error) return. -/
theorem C8_listing_failure_aborts :
    (∀ (rc : Int) (stdout : List Char) (env : Env) (crash : String → Option String),
        rc ≠ 0 → mainRun rc stdout env crash = none)
    ∧ (∀ (rc : Int) (stdout : List Char) (env : Env) (crash : String → Option String),
        get_all_packages rc stdout = [] → mainRun rc stdout env crash = none) := by
  constructor
  · intro rc stdout env crash h
    simp [mainRun, get_all_packages, h]
  · intro rc stdout env crash h
    simp [mainRun, h]

/-- C8 witness: with exit code 1 the run is aborted with no document. -/
theorem C8_witness : mainRun 1 [] envA crash0 = none :=
  C8_listing_failure_aborts.1 1 [] envA crash0 (by decide)

/-- C9: for every exit code and every output of the OS package query, the
package listing is sorted in ascending order and free of duplicates. -/
theorem C9_listing_sorted_nodup :
    ∀ (rc : Int) (stdout : List Char),
    (get_all_packages rc stdout).Sorted (· ≤ ·) ∧ (get_all_packages rc stdout).Nodup := by
  intro rc stdout
  unfold get_all_packages
  by_cases h : rc ≠ 0
  · simp [h]
  · simp only [h, if_false]
    constructor
    · exact List.sorted_mergeSort' _
    · exact (List.mergeSort_perm _ _).symm.nodup (List.nodup_dedup _)

/-! ### Character-membership lemmas: which characters each stage of the
formatter can emit. -/

theorem mem_removeAnsiAux {c : Char} :
    ∀ (s p : List Char), c ∈ removeAnsiAux p s → c ∈ p ∨ c ∈ s := by
  intro s
  induction s with
  | nil => intro p h; rw [removeAnsiAux] at h; exact Or.inl h
  | cons a rest ih =>
    intro p h
    rw [removeAnsiAux] at h
    by_cases h0 : p = []
    · rw [if_pos h0] at h
      by_cases he : a = '\x1b'
      · rw [if_pos he] at h
        rcases ih _ h with h' | h'
        · simp at h'; subst h'; exact Or.inr (by simp [he])
        · exact Or.inr (List.mem_cons_of_mem _ h')
      · rw [if_neg he] at h
        rcases List.mem_cons.1 h with h' | h'
        · exact Or.inr (by simp [h'])
        · rcases ih _ h' with h'' | h''
          · simp at h''
          · exact Or.inr (List.mem_cons_of_mem _ h'')
    · rw [if_neg h0] at h
      by_cases h1 : p = ['\x1b']
      · rw [if_pos h1] at h
        by_cases hb : a = '['
        · rw [if_pos hb] at h
          rcases ih _ h with h' | h'
          · simp at h'
            rcases h' with h' | h'
            · exact Or.inl (by simp [h1, h'])
            · exact Or.inr (by simp [hb, h'])
          · exact Or.inr (List.mem_cons_of_mem _ h')
        · rw [if_neg hb] at h
          by_cases he : a = '\x1b'
          · rw [if_pos he] at h
            rcases List.mem_cons.1 h with h' | h'
            · exact Or.inl (by simp [h1, h'])
            · rcases ih _ h' with h'' | h''
              · simp at h''; exact Or.inl (by simp [h1, h''])
              · exact Or.inr (List.mem_cons_of_mem _ h'')
          · rw [if_neg he] at h
            rcases List.mem_cons.1 h with h' | h'
            · exact Or.inl (by simp [h1, h'])
            · rcases List.mem_cons.1 h' with h'' | h''
              · exact Or.inr (by simp [h''])
              · rcases ih _ h'' with h3 | h3
                · simp at h3
                · exact Or.inr (List.mem_cons_of_mem _ h3)
      · rw [if_neg h1] at h
        by_cases hm : a = 'm'
        · rw [if_pos hm] at h
          rcases ih _ h with h' | h'
          · simp at h'
          · exact Or.inr (List.mem_cons_of_mem _ h')
        · rw [if_neg hm] at h
          by_cases hd : isDigitSemi a = true
          · rw [if_pos hd] at h
            rcases ih _ h with h' | h'
            · rcases List.mem_append.1 h' with h'' | h''
              · exact Or.inl h''
              · simp at h''; exact Or.inr (by simp [h''])
            · exact Or.inr (List.mem_cons_of_mem _ h')
          · rw [if_neg hd] at h
            by_cases he : a = '\x1b'
            · rw [if_pos he] at h
              rcases List.mem_append.1 h with h' | h'
              · exact Or.inl h'
              · rcases ih _ h' with h'' | h''
                · simp at h''; exact Or.inr (by simp [h'', he])
                · exact Or.inr (List.mem_cons_of_mem _ h'')
            · rw [if_neg he] at h
              rcases List.mem_append.1 h with h' | h'
              · exact Or.inl h'
              · rcases List.mem_cons.1 h' with h'' | h''
                · exact Or.inr (by simp [h''])
                · rcases ih _ h'' with h3 | h3
                  · simp at h3
                  · exact Or.inr (List.mem_cons_of_mem _ h3)

theorem mem_removeAnsi {c : Char} {s : List Char} (h : c ∈ removeAnsi s) : c ∈ s := by
  rcases mem_removeAnsiAux s [] h with h' | h'
  · simp at h'
  · exact h'

theorem mem_removeDoubled {c : Char} :
    ∀ {s : List Char}, c ∈ removeDoubled s → c ∈ s := by
  intro s
  induction s using removeDoubled.induct with
  | case1 a b rest hab ih =>
    intro h
    rw [removeDoubled, if_pos hab] at h
    rcases List.mem_cons.1 h with h' | h'
    · simp [h']
    · simp [ih h']
  | case2 a b rest hab ih =>
    intro h
    rw [removeDoubled, if_neg hab] at h
    rcases List.mem_cons.1 h with h' | h'
    · simp [h']
    · simp [ih h']
  | case3 a => intro h; simpa [removeDoubled] using h
  | case4 => intro h; simpa [removeDoubled] using h

theorem mem_collapseSpacesAux {c : Char} :
    ∀ (s : List Char) (b : Bool), c ∈ collapseSpacesAux b s → c ∈ s ∨ c = ' ' := by
  intro s
  induction s with
  | nil => intro b h; rw [collapseSpacesAux] at h; simp at h
  | cons a rest ih =>
    intro b h
    rw [collapseSpacesAux] at h
    by_cases ha : isSpaceTab a = true
    · rw [if_pos ha] at h
      cases b with
      | true =>
        rw [if_pos rfl] at h
        rcases ih _ h with h'' | h'' <;> simp [h'']
      | false =>
        rw [if_neg (by simp)] at h
        rcases List.mem_cons.1 h with h' | h'
        · exact Or.inr h'
        · rcases ih _ h' with h'' | h'' <;> simp [h'']
    · rw [if_neg ha] at h
      rcases List.mem_cons.1 h with h' | h'
      · simp [h']
      · rcases ih _ h' with h'' | h'' <;> simp [h'']

theorem mem_collapseSpaces {c : Char} {s : List Char} (h : c ∈ collapseSpaces s) :
    c ∈ s ∨ c = ' ' := mem_collapseSpacesAux s false h

theorem mem_removeCR {c : Char} : ∀ {s : List Char}, c ∈ removeCR s → c ∈ s := by
  intro s
  induction s using removeCR.induct with
  | case1 a b rest hab ih =>
    intro h
    rw [removeCR, if_pos hab] at h
    rcases List.mem_cons.1 h with h' | h'
    · simp [h', hab.2]
    · simp [ih h']
  | case2 a b rest hab ih =>
    intro h
    rw [removeCR, if_neg hab] at h
    rcases List.mem_cons.1 h with h' | h'
    · simp [h']
    · simp [ih h']
  | case3 a => intro h; simpa [removeCR] using h
  | case4 => intro h; simpa [removeCR] using h

theorem mem_cleanupText {c : Char} {t : List Char} (h : c ∈ cleanupText t) :
    c ∈ t ∨ c = ' ' := by
  unfold cleanupText at h
  rcases mem_collapseSpaces (mem_removeCR h) with h' | h'
  · have h2 := mem_removeDoubled h'
    have h3 := List.mem_of_mem_filter (List.mem_of_mem_filter h2)
    exact Or.inl (mem_removeAnsi h3)
  · exact Or.inr h'

theorem underscore_not_mem_cleanupText (t : List Char) : '_' ∉ cleanupText t := by
  intro h
  unfold cleanupText at h
  rcases mem_collapseSpaces (mem_removeCR h) with h' | h'
  · have h2 := mem_removeDoubled h'
    have h3 := (List.mem_filter.1 h2).2
    simp at h3
  · simp at h'

theorem mem_collapseNLAux {c : Char} :
    ∀ (s : List Char) (p : Nat), c ∈ collapseNLAux p s → c = '\n' ∨ c ∈ s := by
  intro s
  induction s with
  | nil =>
    intro p h
    rw [collapseNLAux] at h
    exact Or.inl (List.eq_of_mem_replicate h)
  | cons a rest ih =>
    intro p h
    rw [collapseNLAux] at h
    by_cases ha : a = '\n'
    · rw [if_pos ha] at h
      rcases ih _ h with h' | h' <;> simp [h']
    · rw [if_neg ha] at h
      rcases List.mem_append.1 h with h' | h'
      · exact Or.inl (List.eq_of_mem_replicate h')
      · rcases List.mem_cons.1 h' with h'' | h''
        · simp [h'']
        · rcases ih _ h'' with h3 | h3 <;> simp [h3]

theorem mem_joinLines {c : Char} :
    ∀ {ls : List (List Char)}, c ∈ joinLines ls → c = '\n' ∨ ∃ l ∈ ls, c ∈ l := by
  intro ls
  induction ls using joinLines.induct with
  | case1 => intro h; simp [joinLines] at h
  | case2 l => intro h; rw [joinLines] at h; exact Or.inr ⟨l, by simp, h⟩
  | case3 l l2 ls ih =>
    intro h
    rw [joinLines] at h
    rcases List.mem_append.1 h with h' | h'
    · exact Or.inr ⟨l, by simp, h'⟩
    · rcases List.mem_cons.1 h' with h'' | h''
      · exact Or.inl h''
      · rcases ih h'' with h3 | ⟨l', hl', hc⟩
        · exact Or.inl h3
        · exact Or.inr ⟨l', by simp [hl'], hc⟩

theorem splitNL_ne_nil : ∀ s : List Char, splitNL s ≠ [] := by
  intro s
  cases s with
  | nil => simp [splitNL]
  | cons a rest =>
    rw [splitNL]
    by_cases ha : a = '\n'
    · rw [if_pos ha]; simp
    · rw [if_neg ha]; simp

theorem mem_splitNL_char {c : Char} :
    ∀ {s : List Char} {l : List Char}, l ∈ splitNL s → c ∈ l → c ∈ s := by
  intro s
  induction s with
  | nil =>
    intro l hl hc
    rw [splitNL] at hl
    simp at hl
    subst hl; simp at hc
  | cons a rest ih =>
    intro l hl hc
    rw [splitNL] at hl
    by_cases ha : a = '\n'
    · rw [if_pos ha] at hl
      rcases List.mem_cons.1 hl with h' | h'
      · subst h'; simp at hc
      · simp [ih h' hc]
    · rw [if_neg ha] at hl
      rcases hsp : splitNL rest with _ | ⟨x, xs⟩
      · exact absurd hsp (splitNL_ne_nil rest)
      · rw [hsp] at hl
        simp only [List.headI, List.tail_cons] at hl
        rcases List.mem_cons.1 hl with h' | h'
        · subst h'
          rcases List.mem_cons.1 hc with h'' | h''
          · simp [h'']
          · have : c ∈ rest := ih (by rw [hsp]; simp) h''
            simp [this]
        · have : c ∈ rest := ih (by rw [hsp]; simp [h']) hc
          simp [this]

theorem mem_rstrip {c : Char} : ∀ {l : List Char}, c ∈ rstrip l → c ∈ l := by
  intro l
  induction l with
  | nil => intro h; simp [rstrip] at h
  | cons a rest ih =>
    intro h
    rw [rstrip] at h
    rcases hr : rstrip rest with _ | ⟨x, xs⟩
    · rw [hr] at h
      by_cases hsp : isPySpaceChar a = true
      · simp [hsp] at h
      · simp [hsp] at h; simp [h]
    · rw [hr] at h
      rcases List.mem_cons.1 h with h' | h'
      · simp [h']
      · have : c ∈ rstrip rest := by rw [hr]; exact h'
        simp [ih this]

theorem mem_processLine {c : Char} {l x : List Char}
    (hx : x ∈ processLine l) (hc : c ∈ x) : c ∈ rstrip l ∨ c = '-' := by
  simp only [processLine] at hx
  by_cases hh : isHeaderLine (rstrip l) = true
  · rw [if_pos hh] at hx
    rcases List.mem_cons.1 hx with h | hx2
    · subst h; simp at hc
    · rcases List.mem_cons.1 hx2 with h | hx3
      · subst h; exact Or.inl hc
      · rcases List.mem_cons.1 hx3 with h | hx4
        · subst h; exact Or.inr (by simpa [dashLine] using hc)
        · simp at hx4; subst hx4; simp at hc
  · rw [if_neg hh] at hx
    by_cases hnil : rstrip l = []
    · rw [if_pos hnil] at hx; simp at hx
    · rw [if_neg hnil] at hx
      have hx1 := List.mem_singleton.1 hx
      subst hx1
      exact Or.inl hc

theorem mem_processLines {c : Char} :
    ∀ {ls : List (List Char)} {x : List Char},
      x ∈ processLines ls → c ∈ x → ∃ l ∈ ls, c ∈ rstrip l ∨ c = '-' := by
  intro ls
  induction ls with
  | nil => intro x hx _; simp [processLines] at hx
  | cons l rest ih =>
    intro x hx hc
    rw [processLines] at hx
    rcases List.mem_append.1 hx with h' | h'
    · exact ⟨l, by simp, mem_processLine h' hc⟩
    · rcases ih h' hc with ⟨l', hl', hres⟩
      exact ⟨l', by simp [hl'], hres⟩

/-! ### Structure of `splitNL`, and the inputs each cleanup stage leaves
unchanged. -/

theorem splitNL_cons_ne {c : Char} (hc : c ≠ '\n') (s : List Char) :
    splitNL (c :: s) = (c :: (splitNL s).headI) :: (splitNL s).tail := by
  rw [splitNL, if_neg hc]

theorem headI_mem_splitNL (s : List Char) : (splitNL s).headI ∈ splitNL s := by
  rcases h : splitNL s with _ | ⟨a, as⟩
  · exact absurd h (splitNL_ne_nil s)
  · simp

theorem splitNL_structure (s : List Char) :
    splitNL s = (splitNL s).headI :: (splitNL s).tail := by
  rcases h : splitNL s with _ | ⟨a, as⟩
  · exact absurd h (splitNL_ne_nil s)
  · simp

theorem removeAnsi_id : ∀ {s : List Char}, '\x1b' ∉ s → removeAnsi s = s := by
  intro s
  unfold removeAnsi
  induction s with
  | nil => intro _; rw [removeAnsiAux]
  | cons c rest ih =>
    intro h
    rw [removeAnsiAux, if_pos rfl, if_neg (fun hc => h (by simp [hc]))]
    exact congrArg _ (ih (fun hc => h (List.mem_cons_of_mem _ hc)))

theorem noDouble_tail {a : Char} {l : List Char} (h : noDouble (a :: l) = true) :
    noDouble l = true := by
  cases l with
  | nil => rfl
  | cons b rest =>
    rw [noDouble, Bool.and_eq_true] at h
    exact h.2

theorem noDouble_pair {a b : Char} {l : List Char} (h : noDouble (a :: b :: l) = true) :
    a ≠ b ∨ a = '\n' := by
  rw [noDouble, Bool.and_eq_true] at h
  have := h.1
  simpa using this

theorem removeDoubled_id : ∀ {s : List Char}, noDouble s = true → removeDoubled s = s := by
  intro s
  induction s using removeDoubled.induct with
  | case1 a b rest hab ih =>
    intro h
    rcases noDouble_pair h with h' | h'
    · exact absurd hab.1 h'
    · exact absurd h' hab.2
  | case2 a b rest hab ih =>
    intro h
    rw [removeDoubled, if_neg hab]
    exact congrArg _ (ih (noDouble_tail h))
  | case3 a => intro _; rfl
  | case4 => intro _; rfl

theorem collapseSpacesAux_id :
    ∀ (s : List Char) (b : Bool), '\t' ∉ s → noDouble s = true →
      (b = true → ∀ r, s ≠ ' ' :: r) → collapseSpacesAux b s = s := by
  intro s
  induction s with
  | nil => intro b _ _ _; rw [collapseSpacesAux]
  | cons c rest ih =>
    intro b htab hnd hb
    rw [collapseSpacesAux]
    by_cases hsp : isSpaceTab c = true
    · have hc : c = ' ' := by
        unfold isSpaceTab at hsp
        simp only [Bool.or_eq_true, decide_eq_true_eq] at hsp
        rcases hsp with h | h
        · exact h
        · exact absurd (h ▸ List.mem_cons_self c rest) htab
      subst hc
      cases b with
      | true => exact absurd rfl (fun h => hb h rest rfl)
      | false =>
        rw [if_pos hsp, if_neg (by simp)]
        congr 1
        apply ih true (fun hm => htab (List.mem_cons_of_mem _ hm)) (noDouble_tail hnd)
        intro _ r hr
        rcases noDouble_pair (hr ▸ hnd) with h' | h'
        · exact h' rfl
        · simp at h'
    · rw [if_neg hsp]
      congr 1
      exact ih false (fun hm => htab (List.mem_cons_of_mem _ hm)) (noDouble_tail hnd)
        (by intro h; simp at h)

theorem collapseSpaces_id {s : List Char} (htab : '\t' ∉ s) (hnd : noDouble s = true) :
    collapseSpaces s = s :=
  collapseSpacesAux_id s false htab hnd (by intro h; simp at h)

theorem removeCR_id : ∀ {s : List Char}, '\r' ∉ s → removeCR s = s := by
  intro s
  induction s using removeCR.induct with
  | case1 a b rest hab ih =>
    intro h
    exact absurd (by simp [hab.1]) h
  | case2 a b rest hab ih =>
    intro h
    rw [removeCR, if_neg hab]
    exact congrArg _ (ih (fun hm => h (List.mem_cons_of_mem _ hm)))
  | case3 a => intro _; rfl
  | case4 => intro _; rfl

theorem normalizedText_chars {t : List Char} (h : normalizedText t = true) :
    ∀ c ∈ t, c ≠ '\x1b' ∧ c ≠ '\x0c' ∧ c ≠ '_' ∧ c ≠ '\t' ∧ c ≠ '\r' := by
  unfold normalizedText at h
  rw [Bool.and_eq_true, List.all_eq_true] at h
  intro c hc
  have := h.1 c hc
  simpa [and_assoc] using this

theorem normalizedText_noDouble {t : List Char} (h : normalizedText t = true) :
    noDouble t = true := by
  unfold normalizedText at h
  rw [Bool.and_eq_true] at h
  exact h.2

theorem cleanupText_id {t : List Char} (h : normalizedText t = true) : cleanupText t = t := by
  have hch := normalizedText_chars h
  have hnd := normalizedText_noDouble h
  unfold cleanupText
  rw [removeAnsi_id (fun hm => (hch _ hm).1 rfl)]
  rw [List.filter_eq_self.2 (fun c hc => by
    simpa using (hch c (List.mem_of_mem_filter hc)).2.2.1)]
  rw [List.filter_eq_self.2 (fun c hc => by simpa using (hch c hc).2.1)]
  rw [removeDoubled_id hnd]
  rw [collapseSpaces_id (fun hm => (hch _ hm).2.2.2.1 rfl) hnd]
  exact removeCR_id (fun hm => (hch _ hm).2.2.2.2 rfl)

theorem noDouble_splitNL :
    ∀ {s : List Char}, noDouble s = true → ∀ l ∈ splitNL s, noDouble l = true := by
  intro s
  induction s with
  | nil =>
    intro _ l hl
    rw [splitNL] at hl
    simp at hl
    subst hl; rfl
  | cons c rest ih =>
    intro hnd l hl
    rw [splitNL] at hl
    by_cases hc : c = '\n'
    · rw [if_pos hc] at hl
      rcases List.mem_cons.1 hl with h | h
      · subst h; rfl
      · exact ih (noDouble_tail hnd) l h
    · rw [if_neg hc] at hl
      rcases List.mem_cons.1 hl with h | h
      · subst h
        cases rest with
        | nil => rw [splitNL]; rfl
        | cons d rest' =>
          by_cases hd : d = '\n'
          · rw [splitNL, if_pos hd]
            rfl
          · rw [splitNL_cons_ne hd]
            have hmem : d :: (splitNL rest').headI ∈ splitNL (d :: rest') := by
              rw [splitNL_cons_ne hd]; simp
            have h2 : noDouble (d :: (splitNL rest').headI) = true :=
              ih (noDouble_tail hnd) _ hmem
            show noDouble (c :: d :: (splitNL rest').headI) = true
            rw [noDouble, Bool.and_eq_true]
            refine ⟨?_, h2⟩
            rcases noDouble_pair hnd with h' | h' <;> simp [h']
      · exact ih (noDouble_tail hnd) l (List.mem_of_mem_tail h)

theorem rstrip_shape (c : Char) (rest : List Char) :
    rstrip (c :: rest) = [] ∨ ∃ r, rstrip (c :: rest) = c :: r := by
  rw [rstrip]
  rcases h : rstrip rest with _ | ⟨x, xs⟩
  · by_cases hc : isPySpaceChar c = true
    · rw [if_pos hc]; exact Or.inl rfl
    · rw [if_neg hc]; exact Or.inr ⟨[], rfl⟩
  · exact Or.inr ⟨x :: xs, rfl⟩

theorem noDouble_rstrip : ∀ {l : List Char}, noDouble l = true → noDouble (rstrip l) = true := by
  intro l
  induction l with
  | nil => intro _; rfl
  | cons c rest ih =>
    intro hnd
    rw [rstrip]
    rcases h : rstrip rest with _ | ⟨x, xs⟩
    · by_cases hc : isPySpaceChar c = true
      · rw [if_pos hc]; rfl
      · rw [if_neg hc]; rfl
    · have hr : noDouble (x :: xs) = true := h ▸ ih (noDouble_tail hnd)
      show noDouble (c :: x :: xs) = true
      rw [noDouble, Bool.and_eq_true]
      refine ⟨?_, hr⟩
      cases rest with
      | nil => rw [rstrip] at h; exact absurd h (by simp)
      | cons d rest' =>
        rcases rstrip_shape d rest' with h2 | ⟨r, h2⟩
        · rw [h2] at h; exact absurd h (by simp)
        · rw [h2] at h
          have hx : x = d := (List.cons.injEq _ _ _ _ ▸ h).1.symm
          subst hx
          rcases noDouble_pair hnd with h' | h' <;> simp [h']

theorem rstrip_idem : ∀ l : List Char, rstrip (rstrip l) = rstrip l := by
  intro l
  induction l with
  | nil => rfl
  | cons c rest ih =>
    rw [rstrip]
    rcases h : rstrip rest with _ | ⟨x, xs⟩
    · by_cases hc : isPySpaceChar c = true
      · rw [if_pos hc]; rfl
      · rw [if_neg hc]
        rw [rstrip, rstrip, if_neg hc]
    · show rstrip (c :: x :: xs) = c :: x :: xs
      have hxs : rstrip (x :: xs) = x :: xs := by
        rw [← h, ih]
      rw [rstrip, hxs]

theorem nl_not_mem_splitNL : ∀ {s l : List Char}, l ∈ splitNL s → '\n' ∉ l := by
  intro s
  induction s with
  | nil =>
    intro l hl
    rw [splitNL] at hl
    simp at hl
    subst hl; simp
  | cons c rest ih =>
    intro l hl
    rw [splitNL] at hl
    by_cases hc : c = '\n'
    · rw [if_pos hc] at hl
      rcases List.mem_cons.1 hl with h | h
      · subst h; simp
      · exact ih h
    · rw [if_neg hc] at hl
      rcases List.mem_cons.1 hl with h | h
      · subst h
        intro hmem
        rcases List.mem_cons.1 hmem with h' | h'
        · exact hc h'.symm
        · exact ih (headI_mem_splitNL rest) h'
      · exact ih (List.mem_of_mem_tail h)

theorem splitNL_no_nl : ∀ {l : List Char}, '\n' ∉ l → splitNL l = [l] := by
  intro l
  induction l with
  | nil => intro _; rfl
  | cons c rest ih =>
    intro h
    have hc : c ≠ '\n' := fun hc => h (by simp [hc])
    rw [splitNL_cons_ne hc, ih (fun hm => h (List.mem_cons_of_mem _ hm))]
    rfl

theorem splitNL_append_nl {l : List Char} (hl : '\n' ∉ l) (r : List Char) :
    splitNL (l ++ '\n' :: r) = l :: splitNL r := by
  induction l with
  | nil => simp [splitNL]
  | cons c rest ih =>
    have hc : c ≠ '\n' := fun hc => hl (by simp [hc])
    rw [List.cons_append, splitNL_cons_ne hc,
      ih (fun hm => hl (List.mem_cons_of_mem _ hm))]
    rfl

theorem mem_splitNL_joinLines :
    ∀ {ls : List (List Char)}, (∀ l ∈ ls, '\n' ∉ l) →
      ∀ {x : List Char}, x ∈ splitNL (joinLines ls) → x = [] ∨ x ∈ ls := by
  intro ls
  induction ls using joinLines.induct with
  | case1 =>
    intro _ x hx
    rw [joinLines, splitNL] at hx
    simp at hx
    exact Or.inl hx
  | case2 l =>
    intro hfree x hx
    rw [joinLines, splitNL_no_nl (hfree l (by simp))] at hx
    simp at hx
    exact Or.inr (by simp [hx])
  | case3 l l2 ls ih =>
    intro hfree x hx
    rw [joinLines, splitNL_append_nl (hfree l (by simp))] at hx
    rcases List.mem_cons.1 hx with h | h
    · exact Or.inr (by simp [h])
    · rcases ih (fun l' hl' => hfree l' (List.mem_cons_of_mem _ hl')) h with h' | h'
      · exact Or.inl h'
      · exact Or.inr (List.mem_cons_of_mem _ h')

/-- Every processed line is empty, the dash rule, or the rstripped form
of an input line. -/
theorem mem_processLines_shape :
    ∀ {ls : List (List Char)} {x : List Char}, x ∈ processLines ls →
      x = [] ∨ x = dashLine ∨ ∃ raw ∈ ls, x = rstrip raw := by
  intro ls
  induction ls with
  | nil => intro x hx; rw [processLines] at hx; simp at hx
  | cons l rest ih =>
    intro x hx
    rw [processLines] at hx
    rcases List.mem_append.1 hx with h | h
    · simp only [processLine] at h
      by_cases hh : isHeaderLine (rstrip l) = true
      · rw [if_pos hh] at h
        rcases List.mem_cons.1 h with h' | h'
        · exact Or.inl h'
        · rcases List.mem_cons.1 h' with h'' | h''
          · exact Or.inr (Or.inr ⟨l, by simp, h''⟩)
          · rcases List.mem_cons.1 h'' with h3 | h3
            · exact Or.inr (Or.inl h3)
            · simp at h3
              exact Or.inl h3
      · rw [if_neg hh] at h
        by_cases hnil : rstrip l = []
        · rw [if_pos hnil] at h; simp at h
        · rw [if_neg hnil] at h
          have := List.mem_singleton.1 h
          exact Or.inr (Or.inr ⟨l, by simp, this⟩)
    · rcases ih h with h' | h' | ⟨raw, hraw, hx'⟩
      · exact Or.inl h'
      · exact Or.inr (Or.inl h')
      · exact Or.inr (Or.inr ⟨raw, List.mem_cons_of_mem _ hraw, hx'⟩)

theorem splitNL_cons_nl (s : List Char) : splitNL ('\n' :: s) = [] :: splitNL s := by
  rw [splitNL, if_pos rfl]

theorem headI_map_splitNL (f : List Char → List Char) (s : List Char) :
    ((splitNL s).map f).headI = f (splitNL s).headI := by
  rcases h : splitNL s with _ | ⟨a, as⟩
  · exact absurd h (splitNL_ne_nil s)
  · simp

theorem tail_map_splitNL (f : List Char → List Char) (s : List Char) :
    ((splitNL s).map f).tail = (splitNL s).tail.map f := by
  rcases h : splitNL s with _ | ⟨a, as⟩
  · exact absurd h (splitNL_ne_nil s)
  · simp

/-- The doubled-character collapse acts line by line: it never crosses or
removes a newline. -/
theorem splitNL_removeDoubled :
    ∀ s : List Char, splitNL (removeDoubled s) = (splitNL s).map removeDoubled := by
  intro s
  induction s using removeDoubled.induct with
  | case1 a b rest hab ih =>
    have ha2 : a ≠ '\n' := hab.2
    have hb2 : b ≠ '\n' := hab.1 ▸ hab.2
    calc splitNL (removeDoubled (a :: b :: rest))
        = splitNL (a :: removeDoubled rest) := by rw [removeDoubled, if_pos hab]
      _ = (a :: (splitNL (removeDoubled rest)).headI) :: (splitNL (removeDoubled rest)).tail :=
          splitNL_cons_ne ha2 _
      _ = (a :: removeDoubled (splitNL rest).headI) :: (splitNL rest).tail.map removeDoubled := by
          rw [ih, headI_map_splitNL, tail_map_splitNL]
      _ = removeDoubled (a :: b :: (splitNL rest).headI) :: (splitNL rest).tail.map removeDoubled := by
          rw [removeDoubled, if_pos hab]
      _ = ((a :: b :: (splitNL rest).headI) :: (splitNL rest).tail).map removeDoubled := by
          rw [List.map_cons]
      _ = (splitNL (a :: b :: rest)).map removeDoubled := by
          rw [splitNL_cons_ne ha2 (b :: rest), splitNL_cons_ne hb2 rest]
          rfl
  | case2 a b rest hab ih =>
    by_cases ha : a = '\n'
    · subst ha
      rw [removeDoubled, if_neg hab, splitNL_cons_nl, ih, splitNL_cons_nl, List.map_cons]
      rfl
    · have hne : a ≠ b := fun h => hab ⟨h, ha⟩
      calc splitNL (removeDoubled (a :: b :: rest))
          = splitNL (a :: removeDoubled (b :: rest)) := by rw [removeDoubled, if_neg hab]
        _ = (a :: (splitNL (removeDoubled (b :: rest))).headI)
              :: (splitNL (removeDoubled (b :: rest))).tail := splitNL_cons_ne ha _
        _ = (a :: removeDoubled (splitNL (b :: rest)).headI)
              :: (splitNL (b :: rest)).tail.map removeDoubled := by
            rw [ih, headI_map_splitNL, tail_map_splitNL]
        _ = removeDoubled (a :: (splitNL (b :: rest)).headI)
              :: (splitNL (b :: rest)).tail.map removeDoubled := by
            congr 1
            by_cases hb : b = '\n'
            · subst hb
              rw [splitNL_cons_nl]
              rfl
            · rw [splitNL_cons_ne hb]
              simp only [List.headI_cons]
              rw [removeDoubled, if_neg (fun hcon => hne hcon.1)]
        _ = ((a :: (splitNL (b :: rest)).headI) :: (splitNL (b :: rest)).tail).map removeDoubled := by
            rw [List.map_cons]
        _ = (splitNL (a :: b :: rest)).map removeDoubled := by
            rw [splitNL_cons_ne ha (b :: rest)]
  | case3 a =>
    by_cases ha : a = '\n'
    · subst ha; rfl
    · rw [show removeDoubled [a] = [a] from rfl, splitNL_cons_ne ha]
      rfl
  | case4 => rfl

/-- The whitespace collapse acts line by line; the first line is
processed with the incoming run flag, later lines with a fresh flag. -/
theorem splitNL_collapseSpacesAux :
    ∀ (s : List Char) (b : Bool),
      splitNL (collapseSpacesAux b s)
        = collapseSpacesAux b (splitNL s).headI :: (splitNL s).tail.map collapseSpaces := by
  intro s
  induction s with
  | nil => intro b; rfl
  | cons c rest ih =>
    intro b
    rw [collapseSpacesAux]
    by_cases hsp : isSpaceTab c = true
    · have hc : c ≠ '\n' := by
        unfold isSpaceTab at hsp
        simp only [Bool.or_eq_true, decide_eq_true_eq] at hsp
        rcases hsp with h | h <;> simp [h]
      rw [if_pos hsp]
      cases b with
      | true =>
        rw [if_pos rfl, ih true, splitNL_cons_ne hc]
        simp only [List.headI_cons, List.tail_cons]
        rw [collapseSpacesAux, if_pos hsp, if_pos rfl]
      | false =>
        rw [if_neg (by simp), splitNL_cons_ne (by decide : (' ' : Char) ≠ '\n'), ih true]
        simp only [List.headI_cons, List.tail_cons]
        rw [splitNL_cons_ne hc]
        simp only [List.headI_cons, List.tail_cons]
        rw [collapseSpacesAux, if_pos hsp, if_neg (by simp)]
    · rw [if_neg hsp]
      by_cases hc : c = '\n'
      · subst hc
        rw [splitNL_cons_nl, ih false, splitNL_cons_nl]
        simp only [List.headI_cons, List.tail_cons, List.map_cons]
        have hb0 : collapseSpacesAux b [] = [] := rfl
        rw [hb0]
        conv_rhs => rw [splitNL_structure rest, List.map_cons]
        rfl
      · rw [splitNL_cons_ne hc, ih false, splitNL_cons_ne hc]
        simp only [List.headI_cons, List.tail_cons]
        rw [collapseSpacesAux, if_neg hsp]

theorem splitNL_collapseSpaces (s : List Char) :
    splitNL (collapseSpaces s) = (splitNL s).map collapseSpaces := by
  rw [show collapseSpaces s = collapseSpacesAux false s from rfl, splitNL_collapseSpacesAux]
  conv_rhs => rw [splitNL_structure s, List.map_cons]
  rfl

theorem splitNL_replicate_append (k : Nat) (y : List Char) :
    splitNL (List.replicate k '\n' ++ y) = List.replicate k [] ++ splitNL y := by
  induction k with
  | zero => simp
  | succ n ih => rw [List.replicate_succ, List.cons_append, splitNL_cons_nl, ih]; rfl

theorem headI_splitNL_collapseNLAux_pos :
    ∀ (s : List Char) (p : Nat), 1 ≤ p → (splitNL (collapseNLAux p s)).headI = [] := by
  intro s
  induction s with
  | nil =>
    intro p hp
    rw [collapseNLAux]
    have h2 : 1 ≤ min p 2 := le_min hp (by omega)
    rcases hk : min p 2 with _ | n
    · omega
    · rw [List.replicate_succ, splitNL_cons_nl]
      rfl
  | cons c rest ih =>
    intro p hp
    rw [collapseNLAux]
    by_cases hc : c = '\n'
    · rw [if_pos hc]
      exact ih _ (by omega)
    · rw [if_neg hc]
      have h2 : 1 ≤ min p 2 := le_min hp (by omega)
      rcases hk : min p 2 with _ | n
      · omega
      · rw [List.replicate_succ, List.cons_append, splitNL_cons_nl]
        rfl

theorem splitNL_replicate_nl (k : Nat) :
    splitNL (List.replicate k '\n') = List.replicate (k + 1) [] := by
  induction k with
  | zero => rfl
  | succ n ih =>
    rw [List.replicate_succ, splitNL_cons_nl, ih, List.replicate_succ ([] : List Char) (n + 1)]

theorem headI_splitNL_collapseNLAux_zero :
    ∀ s : List Char, (splitNL (collapseNLAux 0 s)).headI = (splitNL s).headI := by
  intro s
  induction s with
  | nil => rfl
  | cons c rest ih =>
    rw [collapseNLAux]
    by_cases hc : c = '\n'
    · rw [if_pos hc, headI_splitNL_collapseNLAux_pos rest 1 (by omega), hc, splitNL_cons_nl]
      rfl
    · rw [if_neg hc, show min 0 2 = 0 from rfl, List.replicate_zero, List.nil_append,
        splitNL_cons_ne hc, splitNL_cons_ne hc]
      simp only [List.headI_cons]
      rw [ih]

theorem tail_mem_splitNL_collapseNLAux :
    ∀ (s : List Char) (p : Nat) {x : List Char},
      x ∈ (splitNL (collapseNLAux p s)).tail →
      x = [] ∨ (x ∈ splitNL s ∧ (p = 0 → x ∈ (splitNL s).tail)) := by
  intro s
  induction s with
  | nil =>
    intro p x hx
    rw [collapseNLAux, splitNL_replicate_nl, List.replicate_succ, List.tail_cons] at hx
    exact Or.inl (List.eq_of_mem_replicate hx)
  | cons c rest ih =>
    intro p x hx
    rw [collapseNLAux] at hx
    by_cases hc : c = '\n'
    · rw [if_pos hc] at hx
      rcases ih (p + 1) hx with h | ⟨h1, _⟩
      · exact Or.inl h
      · subst hc
        rw [splitNL_cons_nl]
        exact Or.inr ⟨List.mem_cons_of_mem _ h1, fun _ => h1⟩
    · rw [if_neg hc, splitNL_replicate_append, splitNL_cons_ne hc] at hx
      rcases hp : p with _ | q
      · subst hp
        rw [show min 0 2 = 0 from rfl, List.replicate_zero, List.nil_append,
          List.tail_cons] at hx
        rcases ih 0 hx with h | ⟨_, h2⟩
        · exact Or.inl h
        · have h3 := h2 rfl
          rw [splitNL_cons_ne hc]
          exact Or.inr ⟨List.mem_cons_of_mem _ h3, fun _ => h3⟩
      · subst hp
        have hk : 1 ≤ min (q + 1) 2 := le_min (by omega) (by omega)
        rcases hkk : min (q + 1) 2 with _ | n
        · omega
        · rw [hkk, List.replicate_succ, List.cons_append, List.tail_cons] at hx
          rcases List.mem_append.1 hx with h | h
          · exact Or.inl (List.eq_of_mem_replicate h)
          · rcases List.mem_cons.1 h with h | h
            · subst h
              rw [headI_splitNL_collapseNLAux_zero]
              refine Or.inr ⟨?_, fun h0 => absurd h0 (Nat.succ_ne_zero q)⟩
              rw [splitNL_cons_ne hc]
              exact List.mem_cons_self _ _
            · rcases ih 0 h with h' | ⟨_, h2⟩
              · exact Or.inl h'
              · have h3 := h2 rfl
                rw [splitNL_cons_ne hc]
                exact Or.inr ⟨List.mem_cons_of_mem _ h3,
                  fun h0 => absurd h0 (Nat.succ_ne_zero q)⟩

/-- Every line of the newline-collapsed text is either empty or a line of
the original text. -/
theorem mem_splitNL_collapseNL {s x : List Char} (hx : x ∈ splitNL (collapseNL s)) :
    x = [] ∨ x ∈ splitNL s := by
  unfold collapseNL at hx
  rw [splitNL_structure (collapseNLAux 0 s)] at hx
  rcases List.mem_cons.1 hx with h | h
  · subst h
    rw [headI_splitNL_collapseNLAux_zero]
    exact Or.inr (headI_mem_splitNL s)
  · rcases tail_mem_splitNL_collapseNLAux s 0 h with h' | ⟨h1, _⟩
    · exact Or.inl h'
    · exact Or.inr h1

/-- Any character of the formatted output is a character of the cleaned
text, a newline, or a dash. -/
theorem mem_improved_format {c : Char} {t : List Char}
    (h : c ∈ improved_format_man_page t) : c ∈ cleanupText t ∨ c = '\n' ∨ c = '-' := by
  unfold improved_format_man_page at h
  by_cases ht : t = []
  · simp [ht] at h
  · simp only [ht, if_neg, Bool.false_eq_true] at h
    rcases mem_collapseNLAux _ 0 h with h' | h'
    · exact Or.inr (Or.inl h')
    · rcases mem_joinLines h' with h'' | ⟨x, hx, hcx⟩
      · exact Or.inr (Or.inl h'')
      · rcases mem_processLines hx hcx with ⟨l, hl, hres⟩
        rcases hres with hres | hres
        · exact Or.inl (mem_splitNL_char hl (mem_rstrip hres))
        · exact Or.inr (Or.inr hres)

/-- C10: the formatter removes every underscore during cleanup and no
later stage introduces one, so formatted output never contains an
underscore — including underscores that occurred in ordinary body text. -/
theorem C10_no_underscore_in_output :
    ∀ t : List Char, (improved_format_man_page t).all (fun c => c ≠ '_') = true := by
  intro t
  rw [List.all_eq_true]
  intro c hc
  simp only [decide_eq_true_eq]
  intro heq
  subst heq
  rcases mem_improved_format hc with h | h | h
  · exact underscore_not_mem_cleanupText t h
  · simp at h
  · simp at h

theorem nl_free_processLines {t : List Char} :
    ∀ l ∈ processLines (splitNL t), '\n' ∉ l := by
  intro l hl
  rcases mem_processLines_shape hl with h | h | ⟨raw, hraw, hx⟩
  · subst h; simp
  · subst h
    intro hm
    exact absurd hm (by decide)
  · subst hx
    intro hm
    exact nl_not_mem_splitNL hraw (mem_rstrip hm)

/-- C7: for already-normalized raw text (text the cleanup stage leaves
unchanged), re-formatting the formatter's own output classifies no new
section headers: every line the second pass classifies as a header was
already classified as a header by the first pass. -/
theorem C7_no_new_headers_on_second_pass :
    ∀ t : List Char, normalizedText t = true →
      headerLines (improved_format_man_page t) ⊆ headerLines t := by
  intro t hnorm l hl
  by_cases ht : t = []
  · subst ht
    have h0 : headerLines (improved_format_man_page []) = [] := by decide
    rw [h0] at hl
    simp at hl
  · have hclean : cleanupText t = t := cleanupText_id hnorm
    have hch := normalizedText_chars hnorm
    have hnd := normalizedText_noDouble hnorm
    have hform : improved_format_man_page t
        = collapseNL (joinLines (processLines (splitNL t))) := by
      unfold improved_format_man_page
      rw [if_neg ht, hclean]
    have hbad : ∀ c : Char, c ∈ improved_format_man_page t →
        c ≠ '\x1b' ∧ c ≠ '\x0c' ∧ c ≠ '_' ∧ c ≠ '\t' ∧ c ≠ '\r' := by
      intro c hc
      rcases mem_improved_format hc with h | h | h
      · rw [hclean] at h
        exact hch c h
      · subst h
        exact ⟨by decide, by decide, by decide, by decide, by decide⟩
      · subst h
        exact ⟨by decide, by decide, by decide, by decide, by decide⟩
    have hcr : '\r' ∉ collapseSpaces (removeDoubled (improved_format_man_page t)) := by
      intro hm
      rcases mem_collapseSpaces hm with h | h
      · exact (hbad _ (mem_removeDoubled h)).2.2.2.2 rfl
      · simp at h
    have hstep : cleanupText (improved_format_man_page t)
        = collapseSpaces (removeDoubled (improved_format_man_page t)) := by
      unfold cleanupText
      rw [removeAnsi_id (fun hm => (hbad _ hm).1 rfl)]
      rw [List.filter_eq_self.2 (fun c hc => by
        simpa using (hbad c (List.mem_of_mem_filter hc)).2.2.1)]
      rw [List.filter_eq_self.2 (fun c hc => by simpa using (hbad c hc).2.1)]
      exact removeCR_id hcr
    unfold headerLines classifiedLines at hl
    rw [hstep, splitNL_collapseSpaces, splitNL_removeDoubled, List.map_map, List.map_map] at hl
    rcases List.mem_filter.1 hl with ⟨hl1, hhead⟩
    rcases List.mem_map.1 hl1 with ⟨x, hx, hlx⟩
    rw [hform] at hx
    rcases mem_splitNL_collapseNL hx with h0 | h1
    · have hle : l = [] := by rw [← hlx, h0]; rfl
      rw [hle] at hhead
      exact absurd hhead (by decide)
    · rcases mem_splitNL_joinLines (nl_free_processLines) h1 with h0 | h2
      · have hle : l = [] := by rw [← hlx, h0]; rfl
        rw [hle] at hhead
        exact absurd hhead (by decide)
      · rcases mem_processLines_shape h2 with h0 | hd | ⟨raw, hraw, hxr⟩
        · have hle : l = [] := by rw [← hlx, h0]; rfl
          rw [hle] at hhead
          exact absurd hhead (by decide)
        · have hle : l = List.replicate 20 '-' := by rw [← hlx, hd]; decide
          rw [hle] at hhead
          exact absurd hhead (by decide)
        · have hnd_raw : noDouble raw = true := noDouble_splitNL hnd raw hraw
          have hnd_x : noDouble (rstrip raw) = true := noDouble_rstrip hnd_raw
          have hRD : removeDoubled (rstrip raw) = rstrip raw := removeDoubled_id hnd_x
          have htab : '\t' ∉ rstrip raw := fun hm =>
            (hch _ (mem_splitNL_char hraw (mem_rstrip hm))).2.2.2.1 rfl
          have hCS : collapseSpaces (rstrip raw) = rstrip raw := collapseSpaces_id htab hnd_x
          have hl_eq : l = rstrip raw := by
            rw [← hlx, hxr]
            show rstrip (collapseSpaces (removeDoubled (rstrip raw))) = rstrip raw
            rw [hRD, hCS, rstrip_idem]
          unfold headerLines classifiedLines
          rw [hclean]
          refine List.mem_filter.2 ⟨?_, hhead⟩
          exact List.mem_map.2 ⟨raw, hraw, hl_eq.symm⟩

/-- C7 witness: a concrete normalized page on which the subset relation
between second-pass and first-pass headers is obtained from the theorem. -/
theorem C7_witness :
    normalizedText ("NAME\nbash - x".data) = true
    ∧ headerLines (improved_format_man_page ("NAME\nbash - x".data))
        ⊆ headerLines ("NAME\nbash - x".data) :=
  ⟨by decide, C7_no_new_headers_on_second_pass ("NAME\nbash - x".data) (by decide)⟩

end TermuxPDF
